import Mathlib

/-
  Verification of the binary-layout engine of the `ether-packet` crate.

  The development shallowly embeds the crate's data model:
  machine integers (`u8`/`u16`/`u32`/`u64`) become `Nat` with explicit
  `% 2^w` where overflow matters, byte arrays become `List Nat` whose
  entries are byte values, and the fallible `TryFrom` conversion becomes
  an `Option`-returning function.
-/

namespace EtherPacket

/-! ## Bit assembly

`ofBits f w` assembles the `w` bits `f 0, f 1, ...` low-to-high into the
low-order `w` bits of a natural number (upper bits zero). -/

/-- Assemble `w` bits, low to high, into a natural number. -/
def ofBits (f : Nat → Bool) : Nat → Nat
  | 0 => 0
  | w + 1 => (cond (f 0) 1 0) + 2 * ofBits (fun j => f (j + 1)) w

/-! ## BitfieldUnit -/

/-- Modelled from the spec: the crate's `bitfield` module (the
`BitfieldUnit` type referenced by `eth.rs`, `ip/v4.rs` and `ip/v6.rs`) is
not among the provided sources.  Following the spec, a `BitfieldUnit`
owns exactly its backing bytes and nothing else; `storage` lists the
backing byte values, byte 0 first. -/
structure BitfieldUnit where
  storage : List Nat
deriving DecidableEq

/-- Modelled from the spec: single-bit read.  Bit `i` of the unit is bit
`i % 8` of backing byte `i / 8` (bit 0 is the least-significant bit of
byte 0); a read past the backing array sees zero bits. -/
def BitfieldUnit.get_bit (u : BitfieldUnit) (i : Nat) : Bool :=
  Nat.testBit (u.storage.getD (i / 8) 0) (i % 8)

/-- Modelled from the spec: `get(start, width)` assembles the backing
bits `start, start+1, ...`, low-to-high, into the low-order `width` bits
of the result (upper bits zero). -/
def BitfieldUnit.get (u : BitfieldUnit) (start width : Nat) : Nat :=
  ofBits (fun j => u.get_bit (start + j)) width

/-- Rebuild a byte list by applying `f` to each (index, byte) pair. -/
def setBytes (f : Nat → Nat → Nat) : Nat → List Nat → List Nat
  | _, [] => []
  | k, b :: bs => f k b :: setBytes f (k + 1) bs

/-- Modelled from the spec: `set(start, width, value)` takes the
low-order `width` bits of `value` and writes each into the corresponding
backing bit, leaving every other backing bit untouched. -/
def BitfieldUnit.set (u : BitfieldUnit) (start width value : Nat) : BitfieldUnit :=
  ⟨setBytes
    (fun k _ => ofBits
      (fun j =>
        if start ≤ 8 * k + j ∧ 8 * k + j < start + width then
          Nat.testBit value (8 * k + j - start)
        else u.get_bit (8 * k + j)) 8)
    0 u.storage⟩

/-- The `BitfieldUnit` holding a 16-bit field value `x`: bit `i` of the
unit equals bit `i` of `x`. -/
def mkUnit16 (x : Nat) : BitfieldUnit :=
  ⟨[x % 2 ^ 8, x / 2 ^ 8 % 2 ^ 8]⟩

/-- The `BitfieldUnit` holding a 32-bit field value `x`: bit `i` of the
unit equals bit `i` of `x`. -/
def mkUnit32 (x : Nat) : BitfieldUnit :=
  ⟨[x % 2 ^ 8, x / 2 ^ 8 % 2 ^ 8, x / 2 ^ 16 % 2 ^ 8, x / 2 ^ 24 % 2 ^ 8]⟩

/-! ## Endian-safe integer wrappers (`types.rs`) -/

/-- Model of Rust `u16::to_be_bytes`: the big-endian bytes of `x`. -/
def u16_to_be_bytes (x : Nat) : List Nat :=
  [x / 2 ^ 8 % 2 ^ 8, x % 2 ^ 8]

/-- Model of Rust `u16::from_be_bytes`: interpret two bytes big-endian. -/
def u16_from_be_bytes (l : List Nat) : Nat :=
  l.getD 0 0 * 2 ^ 8 + l.getD 1 0

/-- Model of Rust `u32::to_be_bytes`. -/
def u32_to_be_bytes (x : Nat) : List Nat :=
  [x / 2 ^ 24 % 2 ^ 8, x / 2 ^ 16 % 2 ^ 8, x / 2 ^ 8 % 2 ^ 8, x % 2 ^ 8]

/-- Model of Rust `u32::from_be_bytes`. -/
def u32_from_be_bytes (l : List Nat) : Nat :=
  l.getD 0 0 * 2 ^ 24 + l.getD 1 0 * 2 ^ 16 + l.getD 2 0 * 2 ^ 8 + l.getD 3 0

/-- Model of Rust `u64::to_be_bytes`. -/
def u64_to_be_bytes (x : Nat) : List Nat :=
  [x / 2 ^ 56 % 2 ^ 8, x / 2 ^ 48 % 2 ^ 8, x / 2 ^ 40 % 2 ^ 8, x / 2 ^ 32 % 2 ^ 8,
   x / 2 ^ 24 % 2 ^ 8, x / 2 ^ 16 % 2 ^ 8, x / 2 ^ 8 % 2 ^ 8, x % 2 ^ 8]

/-- Model of Rust `u64::from_be_bytes`. -/
def u64_from_be_bytes (l : List Nat) : Nat :=
  l.getD 0 0 * 2 ^ 56 + l.getD 1 0 * 2 ^ 48 + l.getD 2 0 * 2 ^ 40 + l.getD 3 0 * 2 ^ 32 +
    l.getD 4 0 * 2 ^ 24 + l.getD 5 0 * 2 ^ 16 + l.getD 6 0 * 2 ^ 8 + l.getD 7 0

/-- `types.rs`: `U16` stores two octets (big-endian on the wire). -/
structure U16 where
  octets : List Nat
deriving DecidableEq

/-- `U16::new(a, b)` stores the two bytes as given. -/
def U16.new (a b : Nat) : U16 := ⟨[a, b]⟩

/-- `U16::to_bits`: interpret the stored octets as big-endian. -/
def U16.to_bits (u : U16) : Nat := u16_from_be_bytes u.octets

/-- `U16::from_bits`: store the big-endian byte representation. -/
def U16.from_bits (bits : Nat) : U16 := ⟨u16_to_be_bytes bits⟩

/-- `types.rs`: `U32` stores four octets (big-endian on the wire). -/
structure U32 where
  octets : List Nat
deriving DecidableEq

/-- `U32::new(a, b, c, d)` stores the four bytes as given. -/
def U32.new (a b c d : Nat) : U32 := ⟨[a, b, c, d]⟩

/-- `U32::to_bits`: interpret the stored octets as big-endian. -/
def U32.to_bits (u : U32) : Nat := u32_from_be_bytes u.octets

/-- `U32::from_bits`: store the big-endian byte representation. -/
def U32.from_bits (bits : Nat) : U32 := ⟨u32_to_be_bytes bits⟩

/-- `types.rs`: `U64` stores eight octets (big-endian on the wire). -/
structure U64 where
  octets : List Nat
deriving DecidableEq

/-- `U64::new(a, b, c, d, e, f, g, h)` as written in `types.rs` line 91:
the stored array is `[a, b, c, d, e, f, g, g]` — the seventh argument is
written twice and the eighth is ignored. -/
def U64.new (a b c d e f g h : Nat) : U64 := ⟨[a, b, c, d, e, f, g, g]⟩

/-- `U64::to_bits`: interpret the stored octets as big-endian. -/
def U64.to_bits (u : U64) : Nat := u64_from_be_bytes u.octets

/-- `U64::from_bits`: store the big-endian byte representation. -/
def U64.from_bits (bits : Nat) : U64 := ⟨u64_to_be_bytes bits⟩

/-! ## EtherType (`eth.rs`) -/

/-- `eth.rs`: closed enumeration of the recognised EtherType codes. -/
inductive EtherType
  | Loop
  | Ipv4
  | Arp
  | WakeOnLan
  | CDP
  | SRP
  | AVTP
  | TRILL
  | MOP
  | DECnet
  | DECLAT
  | RARP
  | AppleTalk
  | AARP
  | VLAN
  | SLPP
  | VLACP
  | Ipv6
  | MPLSUnicast
  | MPLSMulticast
  | LACP
  | QinQ
  | LLDP
  | FibreChannel
  | RoCE
  | LoopbackIeee8023
deriving DecidableEq, Fintype

/-- The `repr(u16)` discriminant of each `EtherType` variant. -/
def EtherType.code : EtherType → Nat
  | .Loop => 0x0060
  | .Ipv4 => 0x0800
  | .Arp => 0x0806
  | .WakeOnLan => 0x0842
  | .CDP => 0x2000
  | .SRP => 0x22EA
  | .AVTP => 0x22F0
  | .TRILL => 0x22F3
  | .MOP => 0x6002
  | .DECnet => 0x6003
  | .DECLAT => 0x6004
  | .RARP => 0x8035
  | .AppleTalk => 0x809B
  | .AARP => 0x80F3
  | .VLAN => 0x8100
  | .SLPP => 0x8102
  | .VLACP => 0x8103
  | .Ipv6 => 0x86DD
  | .MPLSUnicast => 0x8847
  | .MPLSMulticast => 0x8848
  | .LACP => 0x8809
  | .QinQ => 0x88A8
  | .LLDP => 0x88CC
  | .FibreChannel => 0x8906
  | .RoCE => 0x8915
  | .LoopbackIeee8023 => 0x9000

/-- `impl TryFrom<u16> for EtherType` (`eth.rs` lines 57-90): `Ok` for
each enumerated code, `Err(())` (here `none`) otherwise. -/
def EtherType.try_from (value : Nat) : Option EtherType :=
  if value = 0x0060 then some .Loop
  else if value = 0x0800 then some .Ipv4
  else if value = 0x0806 then some .Arp
  else if value = 0x0842 then some .WakeOnLan
  else if value = 0x2000 then some .CDP
  else if value = 0x22EA then some .SRP
  else if value = 0x22F0 then some .AVTP
  else if value = 0x22F3 then some .TRILL
  else if value = 0x6002 then some .MOP
  else if value = 0x6003 then some .DECnet
  else if value = 0x6004 then some .DECLAT
  else if value = 0x8035 then some .RARP
  else if value = 0x809B then some .AppleTalk
  else if value = 0x80F3 then some .AARP
  else if value = 0x8100 then some .VLAN
  else if value = 0x8102 then some .SLPP
  else if value = 0x8103 then some .VLACP
  else if value = 0x86DD then some .Ipv6
  else if value = 0x8847 then some .MPLSUnicast
  else if value = 0x8848 then some .MPLSMulticast
  else if value = 0x8809 then some .LACP
  else if value = 0x88A8 then some .QinQ
  else if value = 0x88CC then some .LLDP
  else if value = 0x8906 then some .FibreChannel
  else if value = 0x8915 then some .RoCE
  else if value = 0x9000 then some .LoopbackIeee8023
  else none

/-! ## VLAN header (`eth.rs`) -/

/-- `eth.rs`: `VlanHdr` overlay.  MAC addresses are byte lists, `tci` is
the 16-bit tag-control bitfield. -/
structure VlanHdr where
  dst_addr : List Nat
  src_addr : List Nat
  tpid : U16
  tci : BitfieldUnit
  ether_type : U16

/-- `VlanHdr::vid`: `self.tci.get(0, 12) as u16`. -/
def VlanHdr.vid (h : VlanHdr) : Nat := h.tci.get 0 12 % 2 ^ 16

/-- `VlanHdr::dei`: `self.tci.get_bit(12)`. -/
def VlanHdr.dei (h : VlanHdr) : Bool := h.tci.get_bit 12

/-- `VlanHdr::pcp`: `self.tci.get(13, 3) as u8`. -/
def VlanHdr.pcp (h : VlanHdr) : Nat := h.tci.get 13 3 % 2 ^ 8

/-- A `VlanHdr` whose tag-control field holds the 16-bit value `x`. -/
def mkVlanWithTci (x : Nat) : VlanHdr :=
  ⟨[0, 0, 0, 0, 0, 0], [0, 0, 0, 0, 0, 0], U16.from_bits 0x8100, mkUnit16 x, U16.from_bits 0⟩

/-! ## IPv4 header (`ip/v4.rs`) -/

/-- `ip/v4.rs`: `Ipv4Hdr` overlay.  `_bitfield_1` packs version/IHL,
`frag_off` packs flags and fragment offset; `proto` is the `IpProto`
discriminant byte. -/
structure Ipv4Hdr where
  _bitfield_1 : BitfieldUnit
  tos : Nat
  tot_len : U16
  id : U16
  frag_off : BitfieldUnit
  ttl : Nat
  proto : Nat
  check : U16
  src_addr : List Nat
  dst_addr : List Nat

/-- `Ipv4Hdr::is_fragment`: `self.frag_off.get(0, 14) > 0`. -/
def Ipv4Hdr.is_fragment (h : Ipv4Hdr) : Bool :=
  decide (0 < h.frag_off.get 0 14)

/-- `Ipv4Hdr::is_not_first_fragment`: `self.frag_off.get(0, 13) > 0`. -/
def Ipv4Hdr.is_not_first_fragment (h : Ipv4Hdr) : Bool :=
  decide (0 < h.frag_off.get 0 13)

/-- `Ipv4Hdr::has_l4_header`: `!self.is_not_first_fragment()`. -/
def Ipv4Hdr.has_l4_header (h : Ipv4Hdr) : Bool :=
  ! h.is_not_first_fragment

/-- An `Ipv4Hdr` whose flags/fragment-offset field holds the 16-bit
value `x`. -/
def mkIpv4WithFragOff (x : Nat) : Ipv4Hdr :=
  ⟨⟨[0]⟩, 0, U16.from_bits 0, U16.from_bits 0, mkUnit16 x, 64, 6, U16.from_bits 0,
   [127, 0, 0, 1], [127, 0, 0, 2]⟩

/-! ## IPv6 header (`ip/v6.rs`) -/

/-- `ip/v6.rs`: `Ipv6Hdr` overlay.  `ver_tc_flow_label` is the leading
32-bit bitfield; `next_hdr` is the `IpProto` discriminant byte. -/
structure Ipv6Hdr where
  ver_tc_flow_label : BitfieldUnit
  payload_len : U16
  next_hdr : Nat
  hop_limit : Nat
  src_addr : List Nat
  dst_addr : List Nat

/-- `Ipv6Hdr::version`: `self.ver_tc_flow_label.get(28, 4) as u8`. -/
def Ipv6Hdr.version (h : Ipv6Hdr) : Nat := h.ver_tc_flow_label.get 28 4 % 2 ^ 8

/-- `Ipv6Hdr::tc`: `self.ver_tc_flow_label.get(20, 8) as u8`. -/
def Ipv6Hdr.tc (h : Ipv6Hdr) : Nat := h.ver_tc_flow_label.get 20 8 % 2 ^ 8

/-- `Ipv6Hdr::flow_label`: `self.ver_tc_flow_label.get(0, 20) as u32`. -/
def Ipv6Hdr.flow_label (h : Ipv6Hdr) : Nat := h.ver_tc_flow_label.get 0 20 % 2 ^ 32

/-- An `Ipv6Hdr` whose leading 32-bit field holds the value `x`. -/
def mkIpv6WithVtf (x : Nat) : Ipv6Hdr :=
  ⟨mkUnit32 x, U16.from_bits 0, 6, 64, List.replicate 16 0, List.replicate 16 0⟩

/-! ## NetEndian (`ne.rs`) -/

/-- The little-endian byte list of `x`, `n` bytes long. -/
def toBytesLE : Nat → Nat → List Nat
  | 0, _ => []
  | n + 1, x => x % 256 :: toBytesLE n (x / 256)

/-- Reassemble a little-endian byte list into a natural number. -/
def fromBytesLE : List Nat → Nat
  | [] => 0
  | b :: bs => b % 256 + 256 * fromBytesLE bs

/-- Model of Rust `swap_bytes` on an `n`-byte unsigned integer: reverse
the byte order.  This is `UnsignedInteger::swap` of `ne.rs` for
`n ∈ {2, 4, 8, 16}`. -/
def swapBytes (n x : Nat) : Nat := fromBytesLE (toBytesLE n x).reverse

/-- `ne.rs`: `NetEndian<T>` stores the raw (network byte order) value. -/
structure NetEndian where
  val : Nat

/-- `NetEndian::get`: `self.0.swap()` for a `n`-byte integer type. -/
def NetEndian.get (n : Nat) (s : NetEndian) : Nat := swapBytes n s.val

/-- `NetEndian::set`: `self.0 = t.swap()` for a `n`-byte integer type. -/
def NetEndian.set (n t : Nat) : NetEndian := ⟨swapBytes n t⟩

/-! ## Bit-assembly lemmas -/

theorem testBit_ofBits (w : Nat) :
    ∀ (f : Nat → Bool) (i : Nat), Nat.testBit (ofBits f w) i = (decide (i < w) && f i) := by
  induction w with
  | zero =>
    intro f i
    simp [ofBits, Nat.zero_testBit]
  | succ w ih =>
    intro f i
    cases i with
    | zero =>
      cases hf : f 0 <;> simp [ofBits, Nat.testBit_zero, hf] <;> omega
    | succ i =>
      rw [ofBits, Nat.testBit_succ]
      have hdiv : ((cond (f 0) 1 0) + 2 * ofBits (fun j => f (j + 1)) w) / 2
          = ofBits (fun j => f (j + 1)) w := by
        cases f 0 <;> simp <;> omega
      rw [hdiv, ih]
      simp [Nat.succ_lt_succ_iff]

theorem ofBits_lt (w : Nat) : ∀ f : Nat → Bool, ofBits f w < 2 ^ w := by
  induction w with
  | zero => intro f; simp [ofBits]
  | succ w ih =>
    intro f
    have h := ih (fun j => f (j + 1))
    have hc : (cond (f 0) 1 0) ≤ 1 := by cases f 0 <;> simp
    rw [ofBits, pow_succ]
    omega

theorem ofBits_congr (w : Nat) :
    ∀ f g : Nat → Bool, (∀ j, j < w → f j = g j) → ofBits f w = ofBits g w := by
  induction w with
  | zero => intro f g _; rfl
  | succ w ih =>
    intro f g h
    rw [ofBits, ofBits, h 0 (by omega), ih (fun j => f (j + 1)) (fun j => g (j + 1))]
    intro j hj
    exact h (j + 1) (by omega)

theorem ofBits_testBit (w : Nat) :
    ∀ v : Nat, ofBits (fun j => Nat.testBit v j) w = v % 2 ^ w := by
  induction w with
  | zero => intro v; simp [ofBits, Nat.mod_one]
  | succ w ih =>
    intro v
    have hshift : (fun j => Nat.testBit v (j + 1)) = fun j => Nat.testBit (v / 2) j := by
      funext j
      exact Nat.testBit_succ v j
    have hc : (cond (Nat.testBit v 0) 1 0) = v % 2 := by
      rw [Nat.testBit_zero]
      rcases Nat.mod_two_eq_zero_or_one v with h | h <;> simp [h]
    rw [ofBits, hshift, ih, hc, pow_succ, mul_comm (2 ^ w) 2, Nat.mod_mul]

theorem ofBits_split (w₁ w₂ : Nat) :
    ∀ f : Nat → Bool,
      ofBits f (w₁ + w₂) = ofBits f w₁ + 2 ^ w₁ * ofBits (fun j => f (w₁ + j)) w₂ := by
  induction w₁ with
  | zero =>
    intro f
    simp [ofBits]
  | succ w₁ ih =>
    intro f
    have hadd : w₁ + 1 + w₂ = (w₁ + w₂) + 1 := by omega
    rw [hadd, ofBits, ih (fun j => f (j + 1)), ofBits]
    have hfun : (fun j => f (j + 1 + w₁ + j - j)) = fun j => f (w₁ + 1 + j) := by
      funext j
      congr 1
      omega
    have hfun₂ : (fun j => f (w₁ + j + 1)) = fun j => f (w₁ + 1 + j) := by
      funext j
      congr 1
      omega
    rw [hfun₂, pow_succ]
    ring

/-! ## BitfieldUnit lemmas -/

theorem setBytes_getD (f : Nat → Nat → Nat) :
    ∀ (l : List Nat) (k i : Nat),
      (setBytes f k l).getD i 0 = if i < l.length then f (k + i) (l.getD i 0) else 0 := by
  intro l
  induction l with
  | nil => intro k i; simp [setBytes]
  | cons b bs ih =>
    intro k i
    cases i with
    | zero => simp [setBytes]
    | succ i =>
      rw [setBytes]
      simp only [List.getD_cons_succ, List.length_cons, ih (k + 1) i]
      have harg : k + 1 + i = k + (i + 1) := by omega
      rw [harg]
      congr 1
      simp [Nat.succ_lt_succ_iff]

/-- The bit of `u.set start width value` at index `i`: inside the written
range (and inside the backing storage) it is the corresponding bit of
`value`; everywhere else it is the original bit. -/
theorem get_bit_set (u : BitfieldUnit) (p w v i : Nat) :
    (u.set p w v).get_bit i =
      if p ≤ i ∧ i < p + w ∧ i < 8 * u.storage.length then
        Nat.testBit v (i - p)
      else u.get_bit i := by
  have hmod : i % 8 < 8 := Nat.mod_lt _ (by omega)
  have hdm : 8 * (i / 8) + i % 8 = i := Nat.div_add_mod i 8
  rw [BitfieldUnit.set, BitfieldUnit.get_bit]
  simp only [setBytes_getD]
  by_cases hlen : i / 8 < u.storage.length
  · have hi : i < 8 * u.storage.length := by omega
    rw [if_pos hlen, testBit_ofBits]
    simp only [Nat.zero_add, decide_eq_true hmod, Bool.true_and]
    rw [hdm]
    by_cases hin : p ≤ i ∧ i < p + w
    · rw [if_pos hin, if_pos ⟨hin.1, hin.2, hi⟩]
    · rw [if_neg hin, if_neg (by omega)]
  · have hi : ¬ i < 8 * u.storage.length := by
      rcases Nat.lt_or_ge i (8 * u.storage.length) with h | h
      · exact absurd ((Nat.div_lt_iff_lt_mul (by omega)).mpr (by omega)) hlen
      · omega
    rw [if_neg hlen, if_neg (by omega), BitfieldUnit.get_bit,
      List.getD_eq_default _ _ (by omega)]

/-- Read a sub-range out of the assembled `W`-bit value of the unit:
`get p w` is bits `p ..< p+w` of `get 0 W` whenever `p + w ≤ W`. -/
theorem get_of_get_zero (u : BitfieldUnit) (p w W : Nat) (h : p + w ≤ W) :
    u.get p w = u.get 0 W / 2 ^ p % 2 ^ w := by
  have hW : W = p + (w + (W - p - w)) := by omega
  rw [BitfieldUnit.get, BitfieldUnit.get, hW, ofBits_split, ofBits_split]
  have hlow : ofBits (fun j => u.get_bit (0 + j)) p < 2 ^ p := ofBits_lt _ _
  have hmid : ofBits (fun j => u.get_bit (0 + (p + j))) w < 2 ^ w := ofBits_lt _ _
  rw [Nat.add_mul_div_left _ _ (Nat.pos_pow_of_pos p (by omega)),
    Nat.div_eq_of_lt hlow, Nat.zero_add, Nat.add_mul_mod_self_left,
    Nat.mod_eq_of_lt hmid]
  exact ofBits_congr _ _ _ (fun j _ => by rw [Nat.zero_add])

/-- Single-bit read as a bit of the assembled `W`-bit value. -/
theorem get_bit_of_get_zero (u : BitfieldUnit) (i W : Nat) (h : i < W) :
    u.get_bit i = Nat.testBit (u.get 0 W) i := by
  have h1 : u.get i 1 = u.get 0 W / 2 ^ i % 2 ^ 1 := get_of_get_zero u i 1 W (by omega)
  have h2 : u.get i 1 = cond (u.get_bit i) 1 0 := by
    simp [BitfieldUnit.get, ofBits]
  have key : u.get 0 W / 2 ^ i % 2 ^ 1 = cond (u.get_bit i) 1 0 := by
    rw [← h1, h2]
  rw [pow_one] at key
  rw [Nat.testBit_to_div_mod, key]
  cases u.get_bit i <;> simp

/-- C1: for every `BitfieldUnit`, every width `w ∈ [1, 64]`, every start
position `p` with `p + w` within the backing storage's bit length, and
every value `v`: after `set(p, w, v)`, `get(p, w)` returns the low-order
`w` bits of `v` (`v % 2^w = v &&& ((1 <<< w) - 1)`), and every backing
bit at an index `i` outside `[p, p + w)` is unchanged by the `set`. -/
theorem bitfield_set_get_roundtrip (u : BitfieldUnit) (p w v i : Nat)
    (hw1 : 1 ≤ w) (hw2 : w ≤ 64) (hpw : p + w ≤ 8 * u.storage.length) :
    (u.set p w v).get p w = v % 2 ^ w ∧
      ((i < p ∨ p + w ≤ i) → (u.set p w v).get_bit i = u.get_bit i) := by
  constructor
  · have hcongr : ofBits (fun j => (u.set p w v).get_bit (p + j)) w
        = ofBits (fun j => Nat.testBit v j) w := by
      apply ofBits_congr
      intro j hj
      rw [get_bit_set, if_pos (by omega)]
      congr 1
      omega
    rw [BitfieldUnit.get, hcongr, ofBits_testBit]
  · intro hi
    rw [get_bit_set, if_neg (by omega)]

/-- C1 witness: a concrete 2-byte unit, writing 8 bits at offset 4. -/
theorem bitfield_set_get_roundtrip_witness :
    (1 ≤ 8 ∧ 8 ≤ 64 ∧ 4 + 8 ≤ 8 * (BitfieldUnit.mk [0xFF, 0xFF]).storage.length) ∧
      ((BitfieldUnit.mk [0xFF, 0xFF]).set 4 8 0x1AB).get 4 8 = 0x1AB % 2 ^ 8 ∧
      ((2 < 4 ∨ 4 + 8 ≤ 2) →
        ((BitfieldUnit.mk [0xFF, 0xFF]).set 4 8 0x1AB).get_bit 2
          = (BitfieldUnit.mk [0xFF, 0xFF]).get_bit 2) :=
  ⟨⟨by decide, by decide, by decide⟩,
   bitfield_set_get_roundtrip ⟨[0xFF, 0xFF]⟩ 4 8 0x1AB 2 (by decide) (by decide) (by decide)⟩

/-! ## Endian wrapper claims -/

/-- C2: for each of `U16`, `U32`, `U64`, `to_bits` and `from_bits` are
mutually inverse: `to_bits (from_bits x) = x` for every host-order
integer `x` of the wrapper's width, and `from_bits (to_bits b) = b` for
every wrapper value `b` (octet lists of the right length with byte
entries). -/
theorem endian_wrapper_roundtrip :
    (∀ x, x < 2 ^ 16 → (U16.from_bits x).to_bits = x) ∧
    (∀ a b, a < 2 ^ 8 → b < 2 ^ 8 →
      U16.from_bits (U16.mk [a, b]).to_bits = U16.mk [a, b]) ∧
    (∀ x, x < 2 ^ 32 → (U32.from_bits x).to_bits = x) ∧
    (∀ a b c d, a < 2 ^ 8 → b < 2 ^ 8 → c < 2 ^ 8 → d < 2 ^ 8 →
      U32.from_bits (U32.mk [a, b, c, d]).to_bits = U32.mk [a, b, c, d]) ∧
    (∀ x, x < 2 ^ 64 → (U64.from_bits x).to_bits = x) ∧
    (∀ a₁ a₂ a₃ a₄ a₅ a₆ a₇ a₈,
      a₁ < 2 ^ 8 → a₂ < 2 ^ 8 → a₃ < 2 ^ 8 → a₄ < 2 ^ 8 →
      a₅ < 2 ^ 8 → a₆ < 2 ^ 8 → a₇ < 2 ^ 8 → a₈ < 2 ^ 8 →
      U64.from_bits (U64.mk [a₁, a₂, a₃, a₄, a₅, a₆, a₇, a₈]).to_bits
        = U64.mk [a₁, a₂, a₃, a₄, a₅, a₆, a₇, a₈]) := by
  refine ⟨fun x hx => ?_, fun a b ha hb => ?_, fun x hx => ?_,
    fun a b c d ha hb hc hd => ?_, fun x hx => ?_,
    fun a₁ a₂ a₃ a₄ a₅ a₆ a₇ a₈ h₁ h₂ h₃ h₄ h₅ h₆ h₇ h₈ => ?_⟩
  · simp only [U16.from_bits, U16.to_bits, u16_to_be_bytes, u16_from_be_bytes,
      List.getD_cons_zero, List.getD_cons_succ]
    omega
  · simp only [U16.from_bits, U16.to_bits, u16_to_be_bytes, u16_from_be_bytes,
      List.getD_cons_zero, List.getD_cons_succ, U16.mk.injEq, List.cons.injEq, and_true]
    omega
  · simp only [U32.from_bits, U32.to_bits, u32_to_be_bytes, u32_from_be_bytes,
      List.getD_cons_zero, List.getD_cons_succ]
    omega
  · simp only [U32.from_bits, U32.to_bits, u32_to_be_bytes, u32_from_be_bytes,
      List.getD_cons_zero, List.getD_cons_succ, U32.mk.injEq, List.cons.injEq, and_true]
    omega
  · simp only [U64.from_bits, U64.to_bits, u64_to_be_bytes, u64_from_be_bytes,
      List.getD_cons_zero, List.getD_cons_succ]
    omega
  · simp only [U64.from_bits, U64.to_bits, u64_to_be_bytes, u64_from_be_bytes,
      List.getD_cons_zero, List.getD_cons_succ, U64.mk.injEq, List.cons.injEq, and_true]
    omega

/-- C2 witness: the round-trips at concrete values. -/
theorem endian_wrapper_roundtrip_witness :
    (U16.from_bits 0x1234).to_bits = 0x1234 ∧
    U16.from_bits (U16.mk [0xAB, 0xCD]).to_bits = U16.mk [0xAB, 0xCD] ∧
    (U32.from_bits 0xDEADBEEF).to_bits = 0xDEADBEEF ∧
    U32.from_bits (U32.mk [1, 2, 3, 4]).to_bits = U32.mk [1, 2, 3, 4] ∧
    (U64.from_bits 0x0123456789ABCDEF).to_bits = 0x0123456789ABCDEF ∧
    U64.from_bits (U64.mk [1, 2, 3, 4, 5, 6, 7, 8]).to_bits
      = U64.mk [1, 2, 3, 4, 5, 6, 7, 8] :=
  ⟨endian_wrapper_roundtrip.1 _ (by decide),
   endian_wrapper_roundtrip.2.1 _ _ (by decide) (by decide),
   endian_wrapper_roundtrip.2.2.1 _ (by decide),
   endian_wrapper_roundtrip.2.2.2.1 _ _ _ _ (by decide) (by decide) (by decide) (by decide),
   endian_wrapper_roundtrip.2.2.2.2.1 _ (by decide),
   endian_wrapper_roundtrip.2.2.2.2.2 _ _ _ _ _ _ _ _ (by decide) (by decide) (by decide)
     (by decide) (by decide) (by decide) (by decide) (by decide)⟩

/-- C3: for each of `U16`, `U32`, `U64`, the stored octets of
`from_bits x` are exactly the big-endian byte representation of `x`
(`x.to_be_bytes()`), written out as the byte values
`x / 2^(8k) % 2^8` from the most significant byte down. -/
theorem from_bits_stores_big_endian :
    (∀ x, (U16.from_bits x).octets = [x / 2 ^ 8 % 2 ^ 8, x % 2 ^ 8]) ∧
    (∀ x, (U32.from_bits x).octets
      = [x / 2 ^ 24 % 2 ^ 8, x / 2 ^ 16 % 2 ^ 8, x / 2 ^ 8 % 2 ^ 8, x % 2 ^ 8]) ∧
    (∀ x, (U64.from_bits x).octets
      = [x / 2 ^ 56 % 2 ^ 8, x / 2 ^ 48 % 2 ^ 8, x / 2 ^ 40 % 2 ^ 8, x / 2 ^ 32 % 2 ^ 8,
         x / 2 ^ 24 % 2 ^ 8, x / 2 ^ 16 % 2 ^ 8, x / 2 ^ 8 % 2 ^ 8, x % 2 ^ 8]) :=
  ⟨fun _ => rfl, fun _ => rfl, fun _ => rfl⟩

/-- C4: at the concrete input `U64::new(1, 2, 3, 4, 5, 6, 7, 8)` the
code stores `[1, 2, 3, 4, 5, 6, 7, 7]` — the seventh byte is duplicated
and the eighth argument is dropped — so the octets are not the eight
argument bytes in order. -/
theorem u64_new_duplicates_seventh_byte :
    (U64.new 1 2 3 4 5 6 7 8).octets = [1, 2, 3, 4, 5, 6, 7, 7] ∧
    (U64.new 1 2 3 4 5 6 7 8).octets ≠ [1, 2, 3, 4, 5, 6, 7, 8] := by
  exact ⟨rfl, by decide⟩

/-! ## EtherType claim -/

/-- `try_from` applied to a variant's own code returns that variant. -/
theorem try_from_code (e : EtherType) : EtherType.try_from (EtherType.code e) = some e := by
  cases e <;> decide

/-- `try_from` rejects any value that is no variant's code. -/
theorem try_from_not_code (v : Nat) (hv : ∀ e : EtherType, EtherType.code e ≠ v) :
    EtherType.try_from v = none := by
  have h1 : ¬ (v = 0x0060) := fun h => hv .Loop h.symm
  have h2 : ¬ (v = 0x0800) := fun h => hv .Ipv4 h.symm
  have h3 : ¬ (v = 0x0806) := fun h => hv .Arp h.symm
  have h4 : ¬ (v = 0x0842) := fun h => hv .WakeOnLan h.symm
  have h5 : ¬ (v = 0x2000) := fun h => hv .CDP h.symm
  have h6 : ¬ (v = 0x22EA) := fun h => hv .SRP h.symm
  have h7 : ¬ (v = 0x22F0) := fun h => hv .AVTP h.symm
  have h8 : ¬ (v = 0x22F3) := fun h => hv .TRILL h.symm
  have h9 : ¬ (v = 0x6002) := fun h => hv .MOP h.symm
  have h10 : ¬ (v = 0x6003) := fun h => hv .DECnet h.symm
  have h11 : ¬ (v = 0x6004) := fun h => hv .DECLAT h.symm
  have h12 : ¬ (v = 0x8035) := fun h => hv .RARP h.symm
  have h13 : ¬ (v = 0x809B) := fun h => hv .AppleTalk h.symm
  have h14 : ¬ (v = 0x80F3) := fun h => hv .AARP h.symm
  have h15 : ¬ (v = 0x8100) := fun h => hv .VLAN h.symm
  have h16 : ¬ (v = 0x8102) := fun h => hv .SLPP h.symm
  have h17 : ¬ (v = 0x8103) := fun h => hv .VLACP h.symm
  have h18 : ¬ (v = 0x86DD) := fun h => hv .Ipv6 h.symm
  have h19 : ¬ (v = 0x8847) := fun h => hv .MPLSUnicast h.symm
  have h20 : ¬ (v = 0x8848) := fun h => hv .MPLSMulticast h.symm
  have h21 : ¬ (v = 0x8809) := fun h => hv .LACP h.symm
  have h22 : ¬ (v = 0x88A8) := fun h => hv .QinQ h.symm
  have h23 : ¬ (v = 0x88CC) := fun h => hv .LLDP h.symm
  have h24 : ¬ (v = 0x8906) := fun h => hv .FibreChannel h.symm
  have h25 : ¬ (v = 0x8915) := fun h => hv .RoCE h.symm
  have h26 : ¬ (v = 0x9000) := fun h => hv .LoopbackIeee8023 h.symm
  unfold EtherType.try_from
  rw [if_neg h1, if_neg h2, if_neg h3, if_neg h4, if_neg h5, if_neg h6, if_neg h7,
    if_neg h8, if_neg h9, if_neg h10, if_neg h11, if_neg h12, if_neg h13, if_neg h14,
    if_neg h15, if_neg h16, if_neg h17, if_neg h18, if_neg h19, if_neg h20, if_neg h21,
    if_neg h22, if_neg h23, if_neg h24, if_neg h25, if_neg h26]

/-- C5: for every 16-bit code `v`, `EtherType::try_from` either returns
the variant whose discriminant equals `v` (when `v` is an enumerated
code) or fails, and on failure no variant at all has code `v`; it never
returns a variant whose code differs from `v` and never defaults. -/
theorem ethertype_try_from_exact (v : Nat) (hv : v < 2 ^ 16) :
    (∃ e, EtherType.try_from v = some e ∧ EtherType.code e = v) ∨
      (EtherType.try_from v = none ∧ ∀ e : EtherType, EtherType.code e ≠ v) := by
  by_cases hd : ∃ e : EtherType, EtherType.code e = v
  · obtain ⟨e, he⟩ := hd
    left
    refine ⟨e, ?_, he⟩
    rw [← he]
    exact try_from_code e
  · right
    push_neg at hd
    exact ⟨try_from_not_code v hd, hd⟩

/-- C5 witness: `0x9100` (not an enumerated code) is rejected, with no
variant carrying that code. -/
theorem ethertype_try_from_exact_witness :
    (0x9100 : Nat) < 2 ^ 16 ∧
      ((∃ e, EtherType.try_from 0x9100 = some e ∧ EtherType.code e = 0x9100) ∨
        (EtherType.try_from 0x9100 = none ∧ ∀ e : EtherType, EtherType.code e ≠ 0x9100)) :=
  ⟨by decide, ethertype_try_from_exact 0x9100 (by decide)⟩

/-! ## Header field-extraction claims -/

/-- C6: `is_fragment()` is true iff the low 14 bits of the 16-bit
flags/fragment-offset field (the assembled value of the `frag_off`
bitfield) are nonzero; a field of `0x2001` (MF = 1, offset = 1) yields
`true` and a field of `0x0000` yields `false`. -/
theorem ipv4_is_fragment_iff (h : Ipv4Hdr) :
    (h.is_fragment = true ↔ h.frag_off.get 0 16 % 2 ^ 14 ≠ 0) ∧
      (mkIpv4WithFragOff 0x2001).is_fragment = true ∧
      (mkIpv4WithFragOff 0x0000).is_fragment = false := by
  refine ⟨?_, by decide, by decide⟩
  have hget : h.frag_off.get 0 14 = h.frag_off.get 0 16 / 2 ^ 0 % 2 ^ 14 :=
    get_of_get_zero h.frag_off 0 14 16 (by omega)
  rw [Ipv4Hdr.is_fragment, hget]
  simp [Nat.pos_iff_ne_zero]

/-- C7: `is_not_first_fragment()` is true iff the low 13 bits (the
offset alone) of the flags/fragment-offset field are nonzero, and
`has_l4_header()` is always its exact negation; field `0x2001` yields
`is_not_first_fragment() = true` and `has_l4_header() = false`, field
`0x0000` yields `false` and `true`. -/
theorem ipv4_not_first_fragment_iff (h : Ipv4Hdr) :
    (h.is_not_first_fragment = true ↔ h.frag_off.get 0 16 % 2 ^ 13 ≠ 0) ∧
      (h.has_l4_header = ! h.is_not_first_fragment) ∧
      (mkIpv4WithFragOff 0x2001).is_not_first_fragment = true ∧
      (mkIpv4WithFragOff 0x2001).has_l4_header = false ∧
      (mkIpv4WithFragOff 0x0000).is_not_first_fragment = false ∧
      (mkIpv4WithFragOff 0x0000).has_l4_header = true := by
  refine ⟨?_, rfl, by decide, by decide, by decide, by decide⟩
  have hget : h.frag_off.get 0 13 = h.frag_off.get 0 16 / 2 ^ 0 % 2 ^ 13 :=
    get_of_get_zero h.frag_off 0 13 16 (by omega)
  rw [Ipv4Hdr.is_not_first_fragment, hget]
  simp [Nat.pos_iff_ne_zero]

/-- C8: `vid()`, `dei()` and `pcp()` extract the bit ranges at offsets
0 (12 bits), 12 (1 bit) and 13 (3 bits) of the 16-bit tag-control field
(the assembled value of `tci`); TCI `0x2064` gives VID `0x064` (100),
DEI `false` and PCP `1`. -/
theorem vlan_field_extraction (h : VlanHdr) :
    (h.vid = h.tci.get 0 16 % 2 ^ 12 ∧
      h.dei = Nat.testBit (h.tci.get 0 16) 12 ∧
      h.pcp = h.tci.get 0 16 / 2 ^ 13 % 2 ^ 3) ∧
      (mkVlanWithTci 0x2064).vid = 100 ∧
      (mkVlanWithTci 0x2064).dei = false ∧
      (mkVlanWithTci 0x2064).pcp = 1 := by
  refine ⟨⟨?_, ?_, ?_⟩, by decide, by decide, by decide⟩
  · have hget : h.tci.get 0 12 = h.tci.get 0 16 / 2 ^ 0 % 2 ^ 12 :=
      get_of_get_zero h.tci 0 12 16 (by omega)
    have hlt : h.tci.get 0 12 < 2 ^ 12 := ofBits_lt _ _
    rw [VlanHdr.vid, Nat.mod_eq_of_lt (by omega), hget]
    simp
  · rw [VlanHdr.dei, get_bit_of_get_zero h.tci 12 16 (by omega)]
  · have hget : h.tci.get 13 3 = h.tci.get 0 16 / 2 ^ 13 % 2 ^ 3 :=
      get_of_get_zero h.tci 13 3 16 (by omega)
    have hlt : h.tci.get 13 3 < 2 ^ 3 := ofBits_lt _ _
    rw [VlanHdr.pcp, Nat.mod_eq_of_lt (by omega), hget]

/-- C9: `version()`, `tc()` and `flow_label()` extract the bit ranges at
offsets 28 (4 bits), 20 (8 bits) and 0 (20 bits) of the leading 32-bit
field; `0x60000000` gives version 6, traffic class 0, flow label 0, and
`0x63456789` gives version 6, traffic class `0x34`, flow label
`0x56789`. -/
theorem ipv6_field_extraction (h : Ipv6Hdr) :
    (h.version = h.ver_tc_flow_label.get 0 32 / 2 ^ 28 % 2 ^ 4 ∧
      h.tc = h.ver_tc_flow_label.get 0 32 / 2 ^ 20 % 2 ^ 8 ∧
      h.flow_label = h.ver_tc_flow_label.get 0 32 % 2 ^ 20) ∧
      ((mkIpv6WithVtf 0x60000000).version = 6 ∧
        (mkIpv6WithVtf 0x60000000).tc = 0 ∧
        (mkIpv6WithVtf 0x60000000).flow_label = 0) ∧
      ((mkIpv6WithVtf 0x63456789).version = 6 ∧
        (mkIpv6WithVtf 0x63456789).tc = 0x34 ∧
        (mkIpv6WithVtf 0x63456789).flow_label = 0x56789) := by
  refine ⟨⟨?_, ?_, ?_⟩, ⟨by decide, by decide, by decide⟩,
    ⟨by decide, by decide, by decide⟩⟩
  · have hget : h.ver_tc_flow_label.get 28 4 = h.ver_tc_flow_label.get 0 32 / 2 ^ 28 % 2 ^ 4 :=
      get_of_get_zero h.ver_tc_flow_label 28 4 32 (by omega)
    have hlt : h.ver_tc_flow_label.get 28 4 < 2 ^ 4 := ofBits_lt _ _
    rw [Ipv6Hdr.version, Nat.mod_eq_of_lt (by omega), hget]
  · have hget : h.ver_tc_flow_label.get 20 8 = h.ver_tc_flow_label.get 0 32 / 2 ^ 20 % 2 ^ 8 :=
      get_of_get_zero h.ver_tc_flow_label 20 8 32 (by omega)
    rw [Ipv6Hdr.tc, hget]
    omega
  · have hget : h.ver_tc_flow_label.get 0 20 = h.ver_tc_flow_label.get 0 32 / 2 ^ 0 % 2 ^ 20 :=
      get_of_get_zero h.ver_tc_flow_label 0 20 32 (by omega)
    have hlt : h.ver_tc_flow_label.get 0 20 < 2 ^ 20 := ofBits_lt _ _
    rw [Ipv6Hdr.flow_label, Nat.mod_eq_of_lt (by omega), hget]
    simp

/-! ## NetEndian claim -/

theorem toBytesLE_length (n : Nat) : ∀ x, (toBytesLE n x).length = n := by
  induction n with
  | zero => intro x; rfl
  | succ n ih => intro x; simp [toBytesLE, ih]

theorem toBytesLE_lt (n : Nat) : ∀ x, ∀ b ∈ toBytesLE n x, b < 256 := by
  induction n with
  | zero => intro x b hb; simp [toBytesLE] at hb
  | succ n ih =>
    intro x b hb
    rw [toBytesLE] at hb
    rcases List.mem_cons.mp hb with h | h
    · omega
    · exact ih _ b h

theorem fromBytesLE_toBytesLE (n : Nat) :
    ∀ x, fromBytesLE (toBytesLE n x) = x % 2 ^ (8 * n) := by
  induction n with
  | zero => intro x; simp [toBytesLE, fromBytesLE, Nat.mod_one]
  | succ n ih =>
    intro x
    have hpow : 2 ^ (8 * (n + 1)) = 256 * 2 ^ (8 * n) := by
      rw [show 8 * (n + 1) = 8 * n + 8 by omega, pow_add]
      ring
    rw [toBytesLE, fromBytesLE, ih, hpow, Nat.mod_mul]
    omega

theorem toBytesLE_fromBytesLE :
    ∀ l : List Nat, (∀ b ∈ l, b < 256) → toBytesLE l.length (fromBytesLE l) = l := by
  intro l
  induction l with
  | nil => intro _; rfl
  | cons b bs ih =>
    intro hb
    have hblt : b < 256 := hb b (List.mem_cons_self b bs)
    rw [fromBytesLE, List.length_cons, toBytesLE]
    have hmod : (b % 256 + 256 * fromBytesLE bs) % 256 = b := by omega
    have hdiv : (b % 256 + 256 * fromBytesLE bs) / 256 = fromBytesLE bs := by omega
    rw [hmod, hdiv, ih (fun c hc => hb c (List.mem_cons_of_mem b hc))]

/-- The modelled `swap_bytes` is an involution on `n`-byte values. -/
theorem swapBytes_swapBytes (n x : Nat) (hx : x < 2 ^ (8 * n)) :
    swapBytes n (swapBytes n x) = x := by
  rw [swapBytes, swapBytes]
  have hrev : toBytesLE n (fromBytesLE (toBytesLE n x).reverse) = (toBytesLE n x).reverse := by
    have h := toBytesLE_fromBytesLE (toBytesLE n x).reverse
      (fun b hb => toBytesLE_lt n x b (List.mem_reverse.mp hb))
    rw [List.length_reverse, toBytesLE_length] at h
    exact h
  rw [hrev, List.reverse_reverse, fromBytesLE_toBytesLE, Nat.mod_eq_of_lt hx]

/-- C10: for each `UnsignedInteger` width (`u16`, `u32`, `u64`, `u128`,
i.e. 2, 4, 8 or 16 bytes) and every value `t` of that width, storing `t`
with `NetEndian::set` and reading it back with `NetEndian::get` returns
exactly `t`, because the byte swap both operations apply is an
involution. -/
theorem netendian_set_get_roundtrip (n t : Nat)
    (hn : n = 2 ∨ n = 4 ∨ n = 8 ∨ n = 16) (ht : t < 2 ^ (8 * n)) :
    NetEndian.get n (NetEndian.set n t) = t ∧ swapBytes n (swapBytes n t) = t := by
  have h := swapBytes_swapBytes n t ht
  exact ⟨h, h⟩

/-- C10 witness: a `u16` value round-trips through `set` and `get`. -/
theorem netendian_set_get_roundtrip_witness :
    ((2 : Nat) = 2 ∨ (2 : Nat) = 4 ∨ (2 : Nat) = 8 ∨ (2 : Nat) = 16) ∧
      (0x1234 : Nat) < 2 ^ (8 * 2) ∧
      (NetEndian.get 2 (NetEndian.set 2 0x1234) = 0x1234 ∧
        swapBytes 2 (swapBytes 2 0x1234) = 0x1234) :=
  ⟨Or.inl rfl, by decide, netendian_set_get_roundtrip 2 0x1234 (Or.inl rfl) (by decide)⟩

end EtherPacket
